import Mathlib

/-!
Shallow embedding of `sentence_splitter.py` (Edit-Split repository).

Strings are modelled as `List Char`.  Python's `\s` character class,
`str.strip`, `str.split` and `str.isalpha` are modelled over the ASCII
fragment (space, tab, newline, carriage return, vertical tab, form feed;
Latin letters), which is the character repertoire the program's heuristics
are written for.  Each definition carries a comment naming the source
construct it embeds.
-/

set_option maxRecDepth 20000

/-- Python `\s` / `str.strip()` whitespace, ASCII fragment. -/
def pyIsSpace (c : Char) : Bool :=
  c = ' ' || c = '\t' || c = '\n' || c = '\r' || c = '\x0b' || c = '\x0c'

/-- Models `[A-Za-z]` (also models `str.isalpha` on the ASCII fragment). -/
def isLatinLetter (c : Char) : Bool :=
  decide ('A' ≤ c ∧ c ≤ 'Z') || decide ('a' ≤ c ∧ c ≤ 'z')

/-- Python regex `.` (any character except a newline; no DOTALL flag is used). -/
def pyAnyChar (c : Char) : Bool := decide (c ≠ '\n')

/-- The paragraph-break sentinel `[PARAGRAPH BREAK]`. -/
def markerL : List Char := "[PARAGRAPH BREAK]".toList

/-- Models `str.lstrip()`: drop leading whitespace. -/
def lstripWs (l : List Char) : List Char := l.dropWhile pyIsSpace

/-- Models `str.rstrip()`: drop trailing whitespace (structural right fold). -/
def rstripWs : List Char → List Char
  | [] => []
  | c :: cs =>
    match rstripWs cs with
    | [] => if pyIsSpace c then [] else [c]
    | r => c :: r

/-- Models `str.strip()`: drop leading and trailing whitespace. -/
def stripWs (l : List Char) : List Char := rstripWs (lstripWs l)

/-- Delete every whitespace character (used to state content preservation). -/
def delWs (l : List Char) : List Char := l.filter (fun c => !pyIsSpace c)

/-- Models `str.rstrip('.')`: drop trailing period characters. -/
def rstripDots : List Char → List Char
  | [] => []
  | c :: cs =>
    match rstripDots cs with
    | [] => if c = '.' then [] else [c]
    | r => c :: r

/-- Whether a list starts with a whitespace character. -/
def headIsWs : List Char → Bool
  | [] => false
  | c :: _ => pyIsSpace c

/-- Models `re.sub(r'\s+', ' ', text)`: collapse every maximal whitespace run to a
single space (right-fold formulation: a whitespace character is dropped when
the next character is also whitespace, otherwise it closes its run as `' '`). -/
def collapseWs : List Char → List Char
  | [] => []
  | c :: cs =>
    if pyIsSpace c then
      if headIsWs cs then collapseWs cs else ' ' :: collapseWs cs
    else c :: collapseWs cs

/-- Models `str.split()` (no separator): whitespace-delimited words, no empties. -/
def pyWords : List Char → List (List Char)
  | [] => []
  | c :: cs =>
    if pyIsSpace c then pyWords cs
    else
      match pyWords cs, headIsWs cs, cs with
      | _, _, [] => [[c]]
      | r, true, _ => [c] :: r
      | w :: rest, false, _ => (c :: w) :: rest
      | [], false, _ => [[c]]

/-- Characters of the (buggy) character class `[PARAGRAPH BREAK]` appearing in
the lookahead of `re.sub(r'\n(?![PARAGRAPH BREAK])', ' ', text)`. -/
def nlClassChars : List Char := ['P', 'A', 'R', 'G', 'H', ' ', 'B', 'E', 'K']

/-- Models `re.sub(r'\n(?![PARAGRAPH BREAK])', ' ', text)`: replace each newline whose
next character is not in the class (or which ends the text) by a space. -/
def nlToSpace : List Char → List Char
  | [] => []
  | c :: cs =>
    (if c = '\n' && !(match cs with
        | [] => false
        | d :: _ => d ∈ nlClassChars) then ' ' else c) :: nlToSpace cs

/-- The replacement text `'\n[PARAGRAPH BREAK]\n'` of the first substitution. -/
def nlRepl : List Char := ('\n' :: markerL) ++ ['\n']

/-- Segments of `text` between the matches of `re.sub(r'\n\s*\n', ...)`.
A match starts at a newline whose following maximal whitespace run contains
another newline; the greedy `\s*` makes the match extend to the last newline
of that run.  Fuel-driven so the kernel can evaluate it; `text.length + 1`
fuel always suffices since every step consumes at least one character. -/
def blankLineSegsGo : Nat → List Char → List (List Char)
  | 0, s => [s]
  | fuel + 1, s =>
    match s with
    | [] => [[]]
    | c :: cs =>
      if c = '\n' && '\n' ∈ cs.takeWhile pyIsSpace then
        let run := cs.takeWhile pyIsSpace
        let rest := (run.reverse.takeWhile (fun d => d ≠ '\n')).reverse ++
          cs.dropWhile pyIsSpace
        [] :: blankLineSegsGo fuel rest
      else
        match blankLineSegsGo fuel cs with
        | [] => [[c]]
        | q :: qs => (c :: q) :: qs

/-- Segments of the text between blank-line matches. -/
def blankLineSegs (t : List Char) : List (List Char) :=
  blankLineSegsGo (t.length + 1) t

/-- Models `re.sub(r'\n\s*\n', '\n[PARAGRAPH BREAK]\n', text)`: the segments joined
by the replacement text. -/
def markBlankLines (t : List Char) : List Char :=
  List.intercalate nlRepl (blankLineSegs t)

/-- Models `preprocess_text`: mark paragraph breaks, turn newlines into spaces,
collapse whitespace runs, trim. -/
def preprocess (t : List Char) : List Char :=
  stripWs (collapseWs (nlToSpace (markBlankLines t)))

/-- Backtracking matcher for `re.match(r'^([A-Za-z]+.)([A-Za-z]+.)+$', w)`:
the dots are unescaped, so each group is one-or-more letters followed by ANY
character (except newline).  `inLetters` is true while inside a group's
letter part; `n` counts completed groups; `$` also matches before a trailing
newline. -/
def multiAbbrAux : List Char → Bool → Nat → Bool
  | [], inLetters, n => !inLetters && decide (2 ≤ n)
  | c :: cs, inLetters, n =>
    if inLetters then
      (pyAnyChar c && multiAbbrAux cs false (n + 1)) ||
      (isLatinLetter c && multiAbbrAux cs true n)
    else
      (decide (c = '\n') && decide (cs = []) && decide (2 ≤ n)) ||
      (isLatinLetter c && multiAbbrAux cs true n)

/-- Models `re.match(r'^([A-Za-z]+.)([A-Za-z]+.)+$', w)` as a Boolean. -/
def multiPartAbbr1 (w : List Char) : Bool := multiAbbrAux w false 0

/-- Models `re.match(r'^([A-Za-z].)([A-Za-z].)+$', w)`: two-or-more pairs of a letter
followed by any character (dot unescaped); `$` also matches before a trailing
newline. -/
def multiPartAbbr2 : List Char → Bool
  | [] => false
  | [_] => false
  | c :: d :: rest => isLatinLetter c && pyAnyChar d && multiPairs rest 2
where
  multiPairs : List Char → Nat → Bool
    | [], n => decide (2 ≤ n)
    | ['\n'], n => decide (2 ≤ n)
    | [_], _ => false
    | c :: d :: rest, n => isLatinLetter c && pyAnyChar d && multiPairs rest (n + 1)

/-- Models `re.match(r'^\s*[A-Z]', next_chars.lstrip())` as a Boolean. -/
def startsUpperAfterWs (l : List Char) : Bool :=
  match (l.dropWhile pyIsSpace).dropWhile pyIsSpace with
  | [] => false
  | c :: _ => decide ('A' ≤ c ∧ c ≤ 'Z')

/-- Backtracking scan for the part of the dialogue-attribution regex after the
opening quote: `[^"]+[.!?]"\s*[a-z]`.  `k` counts the `[^"]` characters
consumed so far. -/
def dlgScan : List Char → Nat → Bool
  | [], _ => false
  | c :: cs, k =>
    if c = '"' then false
    else
      (decide (1 ≤ k) && (c = '.' || c = '!' || c = '?') &&
        (match cs with
         | '"' :: ws =>
           (match ws.dropWhile pyIsSpace with
            | [] => false
            | d :: _ => decide ('a' ≤ d ∧ d ≤ 'z'))
         | _ => false)) ||
      dlgScan cs (k + 1)

/-- Models `re.search(r'^\s*"[^"]+[.!?]"\s*[a-z]', current_sentence)`: anchored at the
start, so the buffer must begin (after whitespace) with a double quote. -/
def dialogueAttr (s : List Char) : Bool :=
  match s.dropWhile pyIsSpace with
  | '"' :: rest => dlgScan rest 0
  | _ => false

/-- The default abbreviation set hard-coded in `load_abbreviations`. -/
def defaultAbbreviations : List (List Char) :=
  (["Mr", "Mrs", "Ms", "Dr", "Prof", "Rev", "Hon", "St", "Sr", "Jr",
    "e.g", "i.e", "etc", "vs", "a.m", "p.m", "U.S", "U.K", "U.N",
    "Ph.D", "M.D", "B.A", "M.A", "B.Sc", "M.Sc", "Inc", "Ltd", "Co",
    "Jan", "Feb", "Mar", "Apr", "Jun", "Jul", "Aug", "Sep", "Sept",
    "Oct", "Nov", "Dec"]).map String.toList

/-- The sentence-terminator candidates `'.!?'`. -/
def termChars : List Char := ['.', '!', '?']

/-- The contiguous slice `p[a:b]` of a list (used to state scan invariants). -/
def sliceP (p : List Char) (a b : Nat) : List Char := (p.take b).drop a

/-- Scanner state of the `while i < len(paragraph)` loop: position, current
sentence buffer, and the sentence list accumulated so far. -/
structure ScanState where
  i : Nat
  cs : List Char
  acc : List (List Char)

/-- Models `next_chars = paragraph[i+1:i+20] if i+1 < len(paragraph) else ""`. -/
def nextChars (p : List Char) (i : Nat) : List Char :=
  if i + 1 < p.length then (p.drop (i + 1)).take 19 else []

/-- The ellipsis test `char == '.' and i+2 < len(paragraph) and
paragraph[i+1:i+3] == '..'`. -/
def ellipsisB (p : List Char) (i : Nat) : Bool :=
  decide (p.getD i ' ' = '.') && decide (i + 2 < p.length) &&
    decide ((p.drop (i + 1)).take 2 = ['.', '.'])

/-- The body of the `if char == '.'` abbreviation classification: `i2` is the
scan position after the possible ellipsis consumption, `cs2` the buffer
including the consumed characters. -/
def isAbbrAt (p : List Char) (abbr : List (List Char)) (i2 : Nat)
    (cs2 : List Char) : Bool :=
  match (pyWords (stripWs cs2)).getLast? with
  | none => false
  | some w =>
    if multiPartAbbr1 w || multiPartAbbr2 w then true
    else if decide (w.length = 2) && isLatinLetter (w.getD 0 ' ') &&
        decide (w.getD 1 ' ' = '.') then true
    else if decide (i2 + 2 < p.length) && isLatinLetter (p.getD (i2 + 1) ' ') &&
        decide (p.getD (i2 + 2) ' ' = '.') then true
    else if decide (rstripDots w ∈ abbr) then true
    else decide (w ∈ abbr)

/-- One iteration of the scanner loop (`paragraph[i]` is appended to the
buffer; candidate terminators are classified; `i` advances by one, or by
three when an ellipsis is consumed). -/
def scanStep (p : List Char) (abbr : List (List Char)) (s : ScanState) :
    ScanState :=
  if s.i < p.length then
    let c := p.getD s.i ' '
    let cs1 := s.cs ++ [c]
    if c ∈ termChars then
      let isE := ellipsisB p s.i
      let cs2 := if isE then cs1 ++ (p.drop (s.i + 1)).take 2 else cs1
      let i2 := if isE then s.i + 2 else s.i
      let isA := if c = '.' then isAbbrAt p abbr i2 cs2 else false
      let openQuotes := decide (cs1.count '"' % 2 ≠ 0)
      let openParens := decide (cs1.count ')' < cs1.count '(')
      if !openQuotes && !openParens && !isA &&
          (!isE || (isE && startsUpperAfterWs (nextChars p s.i))) then
        if dialogueAttr cs2 then ⟨i2 + 1, cs2, s.acc⟩
        else ⟨i2 + 1, [], s.acc ++ [stripWs cs2]⟩
      else ⟨i2 + 1, cs2, s.acc⟩
    else ⟨s.i + 1, cs1, s.acc⟩
  else s

/-- The scanner loop, fuel-driven; `p.length` fuel suffices because every
step advances `i` by at least one. -/
def scanLoop (p : List Char) (abbr : List (List Char)) :
    Nat → ScanState → ScanState
  | 0, s => s
  | fuel + 1, s =>
    if s.i < p.length then scanLoop p abbr fuel (scanStep p abbr s) else s

/-- Models `text.split('[PARAGRAPH BREAK]')`: fuel-driven; `text.length + 1` fuel
always suffices. -/
def splitMarkerGo : Nat → List Char → List (List Char)
  | 0, s => [s]
  | fuel + 1, s =>
    if markerL.isPrefixOf s then
      [] :: splitMarkerGo fuel (s.drop markerL.length)
    else
      match s with
      | [] => [[]]
      | c :: cs =>
        match splitMarkerGo fuel cs with
        | [] => [[c]]
        | q :: qs => (c :: q) :: qs

/-- Models `text.split('[PARAGRAPH BREAK]')`. -/
def pySplitMarker (t : List Char) : List (List Char) :=
  splitMarkerGo (t.length + 1) t

/-- Models the `for paragraph in paragraphs` loop of `split_into_sentences`:
`last` is `paragraphs[-1]`, `acc` the sentence list so far, `cs` the
current-sentence buffer carried between paragraphs. -/
def processParas (abbr : List (List Char)) (last : List Char) :
    List (List Char) → List (List Char) → List Char → List (List Char)
  | [], acc, _ => acc
  | para :: rest, acc, cs =>
    if stripWs para = [] then processParas abbr last rest acc cs
    else
      let st := scanLoop para abbr para.length ⟨0, cs, acc⟩
      let acc1 := if stripWs st.cs ≠ [] then st.acc ++ [stripWs st.cs] else st.acc
      let cs1 := if stripWs st.cs ≠ [] then [] else st.cs
      let acc2 := if para ≠ last then acc1 ++ [markerL] else acc1
      processParas abbr last rest acc2 cs1

/-- Models `split_into_sentences(text, abbreviations)`. -/
def splitIntoSentences (text : List Char) (abbr : List (List Char)) :
    List (List Char) :=
  let ps := pySplitMarker text
  processParas abbr (ps.getLastD []) ps [] []

/-- The whole pipeline as invoked by `main`: normalize, then segment. -/
def segmentText (raw : List Char) (abbr : List (List Char)) : List (List Char) :=
  splitIntoSentences (preprocess raw) abbr

/-- Deleting every occurrence of the paragraph-break marker from a text
(the pieces of the marker split, concatenated). -/
def deleteMarkers (u : List Char) : List Char := (pySplitMarker u).flatten

/-- Modelled from the spec: a word is an alternating letter-period pattern of
two-or-more groups, each group one-or-more letters followed by a PERIOD
(the spec's reading of the first abbreviation criterion, `Ph.D.`, `U.S.`). -/
def specAltAux : List Char → Bool → Nat → Bool
  | [], inLetters, n => !inLetters && decide (2 ≤ n)
  | c :: cs, inLetters, n =>
    if inLetters then
      (decide (c = '.') && specAltAux cs false (n + 1)) ||
      (isLatinLetter c && specAltAux cs true n)
    else isLatinLetter c && specAltAux cs true n

/-- Modelled from the spec: letter-period alternation of two-or-more groups. -/
def specLetterPeriodAlt (w : List Char) : Bool := specAltAux w false 0

/-- Modelled from the spec: the number of blank-line separated blocks of the
source (the non-whitespace segments between blank-line separators). -/
def specBlocks (raw : List Char) : Nat :=
  ((blankLineSegs raw).filter (fun q => decide (stripWs q ≠ []))).length

/-- The quote/paren guard of the scanner: the buffer (with the candidate
terminator appended) has an odd number of double quotes or more open than
close parentheses. -/
def quoteParenOpen (l : List Char) : Bool :=
  decide (l.count '"' % 2 ≠ 0) || decide (l.count ')' < l.count '(')

/-- Scan invariant: the position is in range and the buffer is whitespace
carried over from earlier paragraphs followed by a contiguous slice of the
current paragraph ending at the scan position. -/
def ScanInv (p : List Char) (s : ScanState) : Prop :=
  s.i ≤ p.length ∧ ∃ w j, j ≤ s.i ∧ (∀ c ∈ w, pyIsSpace c = true) ∧
    s.cs = w ++ sliceP p j s.i

/-- A well-formed emitted sentence token: trimmed, non-empty, and the trim of
a contiguous slice of the paragraph. -/
def TokGood (p tok : List Char) : Prop :=
  stripWs tok = tok ∧ stripWs tok ≠ [] ∧ ∃ m, m <:+: p ∧ tok = stripWs m

/-- Adjacent characters are not both whitespace. -/
def noTwoWs (a b : Char) : Prop := ¬(pyIsSpace a = true ∧ pyIsSpace b = true)

/-! ### Whitespace and trimming lemmas -/

theorem rstripWs_cons (c : Char) (cs : List Char) :
    rstripWs (c :: cs) = match rstripWs cs with
      | [] => if pyIsSpace c then [] else [c]
      | r => c :: r := rfl

theorem rstripWs_decomp (l : List Char) :
    ∃ w, l = rstripWs l ++ w ∧ ∀ c ∈ w, pyIsSpace c := by
  induction l with
  | nil => exact ⟨[], rfl, by simp⟩
  | cons c cs ih =>
    obtain ⟨w, hw, hws⟩ := ih
    cases h : rstripWs cs with
    | nil =>
      rw [h] at hw
      simp only [List.nil_append] at hw
      by_cases hc : pyIsSpace c
      · refine ⟨c :: cs, ?_, ?_⟩
        · rw [rstripWs_cons, h]
          simp [hc]
        · intro d hd
          rcases List.mem_cons.mp hd with rfl | hd
          · exact hc
          · exact hws _ (hw ▸ hd)
      · refine ⟨w, ?_, hws⟩
        rw [rstripWs_cons, h]
        simp [hc, hw]
    | cons r rs =>
      refine ⟨w, ?_, hws⟩
      rw [rstripWs_cons, h]
      rw [h] at hw
      simp [hw]

theorem rstripWs_eq_nil_of_allws {l : List Char}
    (h : ∀ c ∈ l, pyIsSpace c) : rstripWs l = [] := by
  induction l with
  | nil => rfl
  | cons c cs ih =>
    rw [rstripWs_cons, ih fun d hd => h d (List.mem_cons_of_mem _ hd)]
    simp [h c (List.mem_cons_self c cs)]

theorem allws_of_rstripWs_eq_nil {l : List Char}
    (h : rstripWs l = []) : ∀ c ∈ l, pyIsSpace c := by
  obtain ⟨w, hw, hws⟩ := rstripWs_decomp l
  rw [h, List.nil_append] at hw
  exact hw ▸ hws

theorem lstripWs_append_allws {w x : List Char}
    (h : ∀ c ∈ w, pyIsSpace c) : lstripWs (w ++ x) = lstripWs x := by
  induction w with
  | nil => rfl
  | cons c cs ih =>
    show List.dropWhile pyIsSpace (c :: (cs ++ x)) = _
    rw [List.dropWhile_cons_of_pos (by simp [h c (List.mem_cons_self c cs)])]
    exact ih fun d hd => h d (List.mem_cons_of_mem _ hd)

theorem lstripWs_decomp (l : List Char) :
    l = l.takeWhile pyIsSpace ++ lstripWs l ∧
      ∀ c ∈ l.takeWhile pyIsSpace, pyIsSpace c :=
  ⟨(List.takeWhile_append_dropWhile pyIsSpace l).symm,
    fun _ hc => List.mem_takeWhile_imp hc⟩

theorem stripWs_decomp (l : List Char) :
    ∃ w₁ w₂, (∀ c ∈ w₁, pyIsSpace c) ∧ (∀ c ∈ w₂, pyIsSpace c) ∧
      l = w₁ ++ stripWs l ++ w₂ := by
  obtain ⟨h1, h1w⟩ := lstripWs_decomp l
  obtain ⟨w₂, hw2, hw2s⟩ := rstripWs_decomp (lstripWs l)
  exact ⟨l.takeWhile pyIsSpace, w₂, h1w, hw2s, by
    unfold stripWs
    rw [List.append_assoc, ← hw2]
    exact h1⟩

theorem delWs_append (a b : List Char) :
    delWs (a ++ b) = delWs a ++ delWs b := by
  simp [delWs]

theorem delWs_eq_nil_of_allws {l : List Char}
    (h : ∀ c ∈ l, pyIsSpace c) : delWs l = [] := by
  simp only [delWs, List.filter_eq_nil_iff]
  intro c hc
  simp [h c hc]

theorem delWs_stripWs (l : List Char) : delWs (stripWs l) = delWs l := by
  obtain ⟨w₁, w₂, h1, h2, hl⟩ := stripWs_decomp l
  conv_rhs => rw [hl]
  rw [delWs_append, delWs_append, delWs_eq_nil_of_allws h1,
    delWs_eq_nil_of_allws h2]
  simp

theorem stripWs_ne_nil_of_mem {c : Char} {l : List Char}
    (hc : c ∈ l) (hws : pyIsSpace c = false) : stripWs l ≠ [] := by
  intro h
  have hdel : delWs l = [] := by rw [← delWs_stripWs, h]; rfl
  have : c ∈ delWs l := by
    simp [delWs, List.mem_filter, hc, hws]
  rw [hdel] at this
  exact List.not_mem_nil c this

theorem stripWs_append_allws {w x : List Char}
    (h : ∀ c ∈ w, pyIsSpace c) : stripWs (w ++ x) = stripWs x := by
  unfold stripWs
  rw [lstripWs_append_allws h]

theorem lstripWs_head_not {l : List Char} {c : Char} {t : List Char}
    (h : lstripWs l = c :: t) : pyIsSpace c = false := by
  have := List.head_dropWhile_not pyIsSpace l (w := by
    intro hnil
    rw [lstripWs] at h
    rw [hnil] at h
    exact List.noConfusion h)
  rwa [show (List.dropWhile pyIsSpace l).head _ = c by
    unfold lstripWs at h
    simp [h]] at this

theorem lstripWs_idem (l : List Char) : lstripWs (lstripWs l) = lstripWs l := by
  cases h : lstripWs l with
  | nil => rfl
  | cons c t =>
    unfold lstripWs
    rw [List.dropWhile_cons_of_neg]
    simp [lstripWs_head_not h]

theorem rstripWs_idem (l : List Char) : rstripWs (rstripWs l) = rstripWs l := by
  induction l with
  | nil => rfl
  | cons c cs ih =>
    cases h : rstripWs cs with
    | nil =>
      rw [rstripWs_cons, h]
      by_cases hc : pyIsSpace c <;> simp [hc, rstripWs]
    | cons r rs =>
      rw [rstripWs_cons, h]
      have hne : rstripWs (r :: rs) = r :: rs := by rw [← h, ih, h]
      simp only []
      rw [rstripWs_cons, hne]

theorem lstripWs_rstripWs_comm (l : List Char) :
    lstripWs (rstripWs (lstripWs l)) = rstripWs (lstripWs l) := by
  cases h : rstripWs (lstripWs l) with
  | nil => rfl
  | cons d t =>
    obtain ⟨w, hw, _⟩ := rstripWs_decomp (lstripWs l)
    rw [h] at hw
    have hd : pyIsSpace d = false :=
      lstripWs_head_not (l := l) (t := t ++ w) (by simpa using hw)
    unfold lstripWs
    rw [List.dropWhile_cons_of_neg]
    simp [hd]

theorem stripWs_idem (l : List Char) : stripWs (stripWs l) = stripWs l := by
  show rstripWs (lstripWs (rstripWs (lstripWs l))) = _
  rw [lstripWs_rstripWs_comm, rstripWs_idem]
  rfl

theorem stripWs_isInfix (l : List Char) : stripWs l <:+: l := by
  obtain ⟨w₁, w₂, _, _, hl⟩ := stripWs_decomp l
  exact ⟨w₁, w₂, hl.symm⟩

/-! ### Normalizer idempotence machinery -/

theorem headIsWs_collapseWs (l : List Char) :
    headIsWs (collapseWs l) = headIsWs l := by
  induction l with
  | nil => rfl
  | cons c cs ih =>
    by_cases hc : pyIsSpace c
    · cases hh : headIsWs cs with
      | true =>
        rw [collapseWs, if_pos hc, if_pos hh, ih, hh]
        simp [headIsWs, hc]
      | false =>
        rw [collapseWs, if_pos hc, if_neg (by simp [hh])]
        show pyIsSpace ' ' = pyIsSpace c
        rw [hc]
        decide
    · rw [collapseWs, if_neg hc]
      simp [headIsWs]

theorem allSpace_collapseWs (l : List Char) :
    ∀ c ∈ collapseWs l, pyIsSpace c → c = ' ' := by
  induction l with
  | nil => intro c hc; simp [collapseWs] at hc
  | cons c cs ih =>
    intro d hd hdws
    by_cases hc : pyIsSpace c
    · cases hh : headIsWs cs with
      | true =>
        rw [collapseWs, if_pos hc, if_pos hh] at hd
        exact ih d hd hdws
      | false =>
        rw [collapseWs, if_pos hc, if_neg (by simp [hh])] at hd
        rcases List.mem_cons.mp hd with rfl | hd
        · rfl
        · exact ih d hd hdws
    · rw [collapseWs, if_neg hc] at hd
      rcases List.mem_cons.mp hd with rfl | hd
      · exact absurd hdws hc
      · exact ih d hd hdws

theorem chain_collapseWs (l : List Char) :
    List.Chain' noTwoWs (collapseWs l) := by
  induction l with
  | nil => simp [collapseWs]
  | cons c cs ih =>
    by_cases hc : pyIsSpace c
    · cases hh : headIsWs cs with
      | true => rw [collapseWs, if_pos hc, if_pos hh]; exact ih
      | false =>
        rw [collapseWs, if_pos hc, if_neg (by simp [hh])]
        rw [List.chain'_cons']
        refine ⟨?_, ih⟩
        intro y hy
        cases hcol : collapseWs cs with
        | nil => rw [hcol] at hy; simp at hy
        | cons d t =>
          rw [hcol] at hy
          simp only [List.head?_cons, Option.mem_def, Option.some.injEq] at hy
          subst hy
          have : headIsWs (collapseWs cs) = false := by
            rw [headIsWs_collapseWs, hh]
          rw [hcol] at this
          simp only [headIsWs] at this
          intro hcontra
          rw [this] at hcontra
          exact Bool.false_ne_true hcontra.2
    · rw [collapseWs, if_neg hc]
      rw [List.chain'_cons']
      refine ⟨?_, ih⟩
      intro y _
      intro hcontra
      exact hc (by simp [hcontra.1])

theorem collapseWs_eq_self {l : List Char}
    (hsp : ∀ c ∈ l, pyIsSpace c → c = ' ')
    (hch : List.Chain' noTwoWs l) : collapseWs l = l := by
  induction l with
  | nil => rfl
  | cons c cs ih =>
    rw [List.chain'_cons'] at hch
    have ihcs := ih (fun d hd => hsp d (List.mem_cons_of_mem _ hd)) hch.2
    by_cases hc : pyIsSpace c
    · have hcsp : c = ' ' := hsp c (List.mem_cons_self c cs) hc
      have hhead : headIsWs cs = false := by
        cases cs with
        | nil => rfl
        | cons d t =>
          have := hch.1 d (by simp)
          simp only [headIsWs]
          by_contra hcon
          simp only [Bool.not_eq_false] at hcon
          exact this ⟨hc, hcon⟩
      rw [collapseWs, if_pos hc, if_neg (by simp [hhead]), ihcs, hcsp]
    · rw [collapseWs, if_neg hc, ihcs]

theorem no_nl_of_allSpace {l : List Char}
    (h : ∀ c ∈ l, pyIsSpace c → c = ' ') : '\n' ∉ l := by
  intro hmem
  have := h '\n' hmem (by decide)
  exact absurd this (by decide)

theorem blankLineSegsGo_no_nl {s : List Char} (h : '\n' ∉ s) :
    ∀ fuel, blankLineSegsGo fuel s = [s] := by
  intro fuel
  induction fuel generalizing s with
  | zero => rfl
  | succ fuel ih =>
    cases s with
    | nil => rfl
    | cons c cs =>
      have hc : c ≠ '\n' := fun hch => h (hch ▸ List.mem_cons_self c cs)
      have hcs : '\n' ∉ cs := fun hm => h (List.mem_cons_of_mem _ hm)
      rw [blankLineSegsGo]
      rw [if_neg (by simp [hc])]
      rw [ih hcs]

theorem intercalate_single (sep x : List Char) :
    List.intercalate sep [x] = x := by
  simp [List.intercalate]

theorem markBlankLines_no_nl {t : List Char} (h : '\n' ∉ t) :
    markBlankLines t = t := by
  unfold markBlankLines blankLineSegs
  rw [blankLineSegsGo_no_nl h, intercalate_single]

theorem nlToSpace_cons (c : Char) (cs : List Char) :
    nlToSpace (c :: cs) =
      (if c = '\n' && !(match cs with
          | [] => false
          | d :: _ => d ∈ nlClassChars) then ' ' else c) :: nlToSpace cs := rfl

theorem nlToSpace_no_nl {l : List Char} (h : '\n' ∉ l) :
    nlToSpace l = l := by
  induction l with
  | nil => rfl
  | cons c cs ih =>
    have hc : c ≠ '\n' := fun hch => h (hch ▸ List.mem_cons_self c cs)
    have hcs : '\n' ∉ cs := fun hm => h (List.mem_cons_of_mem _ hm)
    rw [nlToSpace_cons, ih hcs]
    simp [hc]

theorem allSpace_stripWs {l : List Char}
    (h : ∀ c ∈ l, pyIsSpace c → c = ' ') :
    ∀ c ∈ stripWs l, pyIsSpace c → c = ' ' :=
  fun c hc => h c ((stripWs_isInfix l).sublist.subset hc)

theorem chain_rstripWs {l : List Char} (h : List.Chain' noTwoWs l) :
    List.Chain' noTwoWs (rstripWs l) := by
  induction l with
  | nil => exact List.chain'_nil
  | cons c cs ih =>
    rw [List.chain'_cons'] at h
    have ihcs := ih h.2
    cases hcs : rstripWs cs with
    | nil =>
      rw [rstripWs_cons, hcs]
      by_cases hc : pyIsSpace c <;> simp [hc]
    | cons r rs =>
      rw [rstripWs_cons, hcs]
      rw [List.chain'_cons']
      constructor
      · intro y hy
        obtain ⟨w, hw, _⟩ := rstripWs_decomp cs
        rw [hcs] at hw
        simp only [List.head?_cons, Option.mem_def, Option.some.injEq] at hy
        subst hy
        apply h.1
        rw [hw]
        simp
      · rw [← hcs]
        exact ihcs

theorem chain_stripWs {l : List Char} (h : List.Chain' noTwoWs l) :
    List.Chain' noTwoWs (stripWs l) :=
  chain_rstripWs (List.Chain'.suffix h (List.dropWhile_suffix pyIsSpace))

theorem preprocess_fix (t : List Char) :
    preprocess (preprocess t) = preprocess t := by
  have hsp : ∀ c ∈ preprocess t, pyIsSpace c → c = ' ' :=
    allSpace_stripWs (allSpace_collapseWs _)
  have hch : List.Chain' noTwoWs (preprocess t) :=
    chain_stripWs (chain_collapseWs _)
  have hnl : '\n' ∉ preprocess t := no_nl_of_allSpace hsp
  show stripWs (collapseWs (nlToSpace (markBlankLines (preprocess t)))) = _
  rw [markBlankLines_no_nl hnl, nlToSpace_no_nl hnl,
    collapseWs_eq_self hsp hch]
  exact stripWs_idem (collapseWs (nlToSpace (markBlankLines t)))

/-! ### Marker-split lemmas -/

theorem isPrefixOf_true_iff {l₁ l₂ : List Char} :
    l₁.isPrefixOf l₂ = true ↔ l₁ <+: l₂ := by simp

theorem splitMarkerGo_succ (fuel : Nat) (s : List Char) :
    splitMarkerGo (fuel + 1) s =
      if markerL.isPrefixOf s then
        [] :: splitMarkerGo fuel (s.drop markerL.length)
      else
        match s with
        | [] => [[]]
        | c :: cs =>
          match splitMarkerGo fuel cs with
          | [] => [[c]]
          | q :: qs => (c :: q) :: qs := rfl

theorem splitMarkerGo_shape (fuel : Nat) :
    ∀ s : List Char, ∃ q qs, splitMarkerGo fuel s = q :: qs ∧ q <+: s ∧
      ∀ r ∈ qs, r <:+: s := by
  induction fuel with
  | zero =>
    intro s
    exact ⟨s, [], rfl, List.prefix_refl s, by simp⟩
  | succ fuel ih =>
    intro s
    by_cases hpre : markerL.isPrefixOf s
    · obtain ⟨q, qs, hq, hqpre, hqs⟩ := ih (s.drop markerL.length)
      have hdrop : s.drop markerL.length <:+ s := List.drop_suffix _ _
      refine ⟨[], q :: qs, ?_, List.nil_prefix, ?_⟩
      · rw [splitMarkerGo_succ, if_pos hpre, hq]
      · intro r hr
        rcases List.mem_cons.mp hr with rfl | hr
        · exact hqpre.isInfix.trans hdrop.isInfix
        · exact (hqs r hr).trans hdrop.isInfix
    · cases s with
      | nil =>
        refine ⟨[], [], ?_, List.nil_prefix, by simp⟩
        rw [splitMarkerGo_succ, if_neg hpre]
      | cons c cs =>
        obtain ⟨q, qs, hq, hqpre, hqs⟩ := ih cs
        refine ⟨c :: q, qs, ?_, ?_, ?_⟩
        · rw [splitMarkerGo_succ, if_neg hpre]
          simp only [hq]
        · obtain ⟨u, hu⟩ := hqpre
          exact ⟨u, by rw [List.cons_append, hu]⟩
        · intro r hr
          exact (hqs r hr).trans (List.suffix_cons c cs).isInfix

theorem markerL_length : markerL.length = 17 := rfl

theorem splitMarkerGo_no_marker (fuel : Nat) :
    ∀ s : List Char, s.length < fuel →
      ∀ q ∈ splitMarkerGo fuel s, ¬ markerL <:+: q := by
  induction fuel with
  | zero => intro s hs; omega
  | succ fuel ih =>
    intro s hs q hq
    by_cases hpre : markerL.isPrefixOf s
    · rw [splitMarkerGo_succ, if_pos hpre] at hq
      have hlen : markerL.length ≤ s.length :=
        (isPrefixOf_true_iff.mp hpre).length_le
      rcases List.mem_cons.mp hq with rfl | hq
      · intro hinf
        have := hinf.sublist.length_le
        rw [markerL_length] at this
        simp at this
      · refine ih (s.drop markerL.length) ?_ q hq
        rw [List.length_drop, markerL_length]
        rw [markerL_length] at hlen
        omega
    · cases s with
      | nil =>
        rw [splitMarkerGo_succ, if_neg hpre] at hq
        simp only [List.mem_singleton] at hq
        subst hq
        intro hinf
        have := hinf.sublist.length_le
        rw [markerL_length] at this
        simp at this
      | cons c cs =>
        have hcs : cs.length < fuel := by
          simp only [List.length_cons] at hs; omega
        obtain ⟨q0, qs0, hq0, hq0pre, _⟩ := splitMarkerGo_shape fuel cs
        rw [splitMarkerGo_succ, if_neg hpre] at hq
        simp only [hq0] at hq
        rcases List.mem_cons.mp hq with rfl | hq
        · intro hinf
          obtain ⟨u, v, huv⟩ := hinf
          cases u with
          | nil =>
            simp only [List.nil_append] at huv
            have hmpre : markerL <+: c :: q0 := ⟨v, huv⟩
            have hq0cs : c :: q0 <+: c :: cs := by
              obtain ⟨w, hw⟩ := hq0pre
              exact ⟨w, by rw [List.cons_append, hw]⟩
            have hf : markerL <+: c :: cs := hmpre.trans hq0cs
            rw [← isPrefixOf_true_iff] at hf
            exact hpre hf
          | cons d u' =>
            have h2 : d :: (u' ++ markerL ++ v) = c :: q0 := by
              simpa using huv
            have hq0eq : q0 = u' ++ markerL ++ v :=
              (List.cons_eq_cons.mp h2).2.symm
            have hin : markerL <:+: q0 := ⟨u', v, hq0eq.symm⟩
            exact ih cs hcs q0 (by rw [hq0]; exact List.mem_cons_self _ _) hin
        · exact ih cs hcs q (by rw [hq0]; exact List.mem_cons_of_mem _ hq)

theorem pySplitMarker_no_marker (t : List Char) :
    ∀ q ∈ pySplitMarker t, ¬ markerL <:+: q :=
  splitMarkerGo_no_marker (t.length + 1) t (by omega)

theorem pySplitMarker_ne_nil (t : List Char) : pySplitMarker t ≠ [] := by
  obtain ⟨q, qs, hq, _, _⟩ := splitMarkerGo_shape (t.length + 1) t
  unfold pySplitMarker
  rw [hq]
  simp

/-! ### Slice lemmas -/

theorem take_snoc (p : List Char) :
    ∀ b, b < p.length → ∀ d, p.take (b + 1) = p.take b ++ [p.getD b d] := by
  induction p with
  | nil => intro b hb; simp at hb
  | cons x xs ih =>
    intro b hb d
    cases b with
    | zero => simp
    | succ b' =>
      simp only [List.take_succ_cons, List.getD_cons_succ, List.cons_append]
      rw [ih b' (by simpa using hb) d]

theorem drop_take_chain (p : List Char) :
    ∀ a b, a ≤ b → (p.take b).drop a ++ p.drop b = p.drop a := by
  induction p with
  | nil => intro a b _; simp
  | cons x xs ih =>
    intro a b hab
    cases a with
    | zero => simp
    | succ a' =>
      cases b with
      | zero => omega
      | succ b' =>
        simp only [List.take_succ_cons, List.drop_succ_cons]
        exact ih a' b' (by omega)

theorem sliceP_empty (p : List Char) (a : Nat) : sliceP p a a = [] := by
  unfold sliceP
  apply List.drop_eq_nil_of_le
  rw [List.length_take]
  omega

theorem sliceP_single (p : List Char) (b : Nat) (hb : b < p.length) (d : Char) :
    sliceP p b (b + 1) = [p.getD b d] := by
  unfold sliceP
  rw [take_snoc p b hb d]
  have hlen : (p.take b).length = b := by
    rw [List.length_take]
    omega
  have h := List.drop_left (p.take b) [p.getD b d]
  rwa [hlen] at h

theorem sliceP_append (p : List Char) (a b c : Nat) (hab : a ≤ b) (hbc : b ≤ c) :
    sliceP p a b ++ sliceP p b c = sliceP p a c := by
  unfold sliceP
  have h1 : p.take b = (p.take c).take b := by
    rw [List.take_take, Nat.min_eq_left hbc]
  rw [h1]
  exact drop_take_chain (p.take c) a b hab

theorem sliceP_snoc (p : List Char) (a b : Nat) (hab : a ≤ b)
    (hb : b < p.length) (d : Char) :
    sliceP p a b ++ [p.getD b d] = sliceP p a (b + 1) := by
  rw [← sliceP_single p b hb d]
  exact sliceP_append p a b (b + 1) hab (by omega)

theorem sliceP_isInfix (p : List Char) (a b : Nat) : sliceP p a b <:+: p := by
  refine ⟨(p.take b).take a, p.drop b, ?_⟩
  unfold sliceP
  rw [List.take_append_drop a (p.take b), List.take_append_drop b p]

theorem sliceP_full (p : List Char) : sliceP p 0 p.length = p := by
  unfold sliceP
  rw [List.take_length, List.drop_zero]

theorem take_drop_eq_sliceP (p : List Char) (a n : Nat) :
    (p.drop a).take n = sliceP p a (a + n) := by
  unfold sliceP
  rw [List.take_drop]

/-! ### Scanner step lemmas -/

theorem ellipsisB_bounds {p : List Char} {i : Nat} (hE : ellipsisB p i = true) :
    i + 2 < p.length := by
  unfold ellipsisB at hE
  simp only [Bool.and_eq_true, decide_eq_true_eq] at hE
  exact hE.1.2

theorem termChar_not_ws {c : Char} (hct : c ∈ termChars) :
    pyIsSpace c = false := by
  fin_cases hct <;> rfl

theorem master_noemit {p : List Char} {s : ScanState} {i' : Nat} {cs' : List Char}
    (hinv : ScanInv p s) (hlt : s.i < i') (hi' : i' ≤ p.length)
    (hcs' : cs' = s.cs ++ sliceP p s.i i') :
    ScanInv p ⟨i', cs', s.acc⟩ ∧ s.i < (⟨i', cs', s.acc⟩ : ScanState).i ∧
    ∃ new, (⟨i', cs', s.acc⟩ : ScanState).acc = s.acc ++ new ∧
      (∀ tok ∈ new, TokGood p tok) ∧
      delWs (new.flatten ++ cs') = delWs (s.cs ++ sliceP p s.i i') := by
  obtain ⟨hle, w, j, hji, hw, hcs⟩ := hinv
  refine ⟨⟨hi', w, j, ?_, hw, ?_⟩, hlt, [], by simp, by simp, by simp [hcs']⟩
  · show j ≤ i'
    omega
  · show cs' = w ++ sliceP p j i'
    rw [hcs', hcs, List.append_assoc,
      sliceP_append p j s.i i' hji (by omega)]

theorem master_emit {p : List Char} {s : ScanState} {i' : Nat} {cs2 : List Char}
    (hinv : ScanInv p s) (hlt : s.i < i') (hi' : i' ≤ p.length)
    (hcs2 : cs2 = s.cs ++ sliceP p s.i i')
    (hmem : ∃ c ∈ cs2, pyIsSpace c = false) :
    ScanInv p ⟨i', [], s.acc ++ [stripWs cs2]⟩ ∧
    s.i < (⟨i', [], s.acc ++ [stripWs cs2]⟩ : ScanState).i ∧
    ∃ new, (⟨i', [], s.acc ++ [stripWs cs2]⟩ : ScanState).acc = s.acc ++ new ∧
      (∀ tok ∈ new, TokGood p tok) ∧
      delWs (new.flatten ++ ([] : List Char)) =
        delWs (s.cs ++ sliceP p s.i i') := by
  obtain ⟨hle, w, j, hji, hw, hcs⟩ := hinv
  have hcs2' : cs2 = w ++ sliceP p j i' := by
    rw [hcs2, hcs, List.append_assoc, sliceP_append p j s.i i' hji (by omega)]
  have hstrip : stripWs cs2 = stripWs (sliceP p j i') := by
    rw [hcs2']
    exact stripWs_append_allws hw
  obtain ⟨c, hcmem, hcw⟩ := hmem
  have hne : stripWs cs2 ≠ [] := stripWs_ne_nil_of_mem hcmem hcw
  refine ⟨⟨hi', [], i', le_refl i', by simp, by rw [sliceP_empty]; rfl⟩,
    hlt, [stripWs cs2], rfl, ?_, ?_⟩
  · intro tok htok
    rw [List.mem_singleton] at htok
    subst htok
    refine ⟨stripWs_idem cs2, by rw [stripWs_idem]; exact hne, sliceP p j i',
      sliceP_isInfix p j i', hstrip⟩
  · show delWs (stripWs cs2 ++ [] ++ []) = _
    rw [List.append_nil, List.append_nil, delWs_stripWs, hcs2]

theorem scanStep_master {p : List Char} (abbr : List (List Char))
    {s : ScanState} (h : s.i < p.length) (hinv : ScanInv p s) :
    ScanInv p (scanStep p abbr s) ∧ s.i < (scanStep p abbr s).i ∧
    ∃ new, (scanStep p abbr s).acc = s.acc ++ new ∧
      (∀ tok ∈ new, TokGood p tok) ∧
      delWs (new.flatten ++ (scanStep p abbr s).cs) =
        delWs (s.cs ++ sliceP p s.i (scanStep p abbr s).i) := by
  have hslice1 : sliceP p s.i (s.i + 1) = [p.getD s.i ' '] :=
    sliceP_single p s.i h ' '
  by_cases hct : p.getD s.i ' ' ∈ termChars
  · cases hE : ellipsisB p s.i with
    | false =>
      have hcs2 : s.cs ++ [p.getD s.i ' '] = s.cs ++ sliceP p s.i (s.i + 1) := by
        rw [hslice1]
      have hmem : ∃ c ∈ s.cs ++ [p.getD s.i ' '], pyIsSpace c = false :=
        ⟨p.getD s.i ' ', by simp, termChar_not_ws hct⟩
      simp only [scanStep]
      rw [if_pos h]
      simp only [hct, if_true, hE, Bool.false_eq_true, if_false]
      split <;>
        (split
         · split
           · exact master_noemit hinv (by omega) (by omega) hcs2
           · exact master_emit hinv (by omega) (by omega) hcs2 hmem
         · exact master_noemit hinv (by omega) (by omega) hcs2)
    | true =>
      have hb : s.i + 2 < p.length := ellipsisB_bounds hE
      have hdots : (p.drop (s.i + 1)).take 2 = sliceP p (s.i + 1) (s.i + 3) := by
        rw [take_drop_eq_sliceP]
      have hcs2 : s.cs ++ [p.getD s.i ' '] ++ (p.drop (s.i + 1)).take 2 =
          s.cs ++ sliceP p s.i (s.i + 3) := by
        rw [hdots, ← hslice1, List.append_assoc,
          sliceP_append p s.i (s.i + 1) (s.i + 3) (by omega) (by omega)]
      have hmem : ∃ c ∈ s.cs ++ [p.getD s.i ' '] ++ (p.drop (s.i + 1)).take 2,
          pyIsSpace c = false :=
        ⟨p.getD s.i ' ', by simp, termChar_not_ws hct⟩
      simp only [scanStep]
      rw [if_pos h]
      simp only [hct, if_true, hE, eq_self_iff_true]
      split <;>
        (split
         · split
           · exact master_noemit hinv (by omega) (by omega) hcs2
           · exact master_emit hinv (by omega) (by omega) hcs2 hmem
         · exact master_noemit hinv (by omega) (by omega) hcs2)
  · have hcs2 : s.cs ++ [p.getD s.i ' '] = s.cs ++ sliceP p s.i (s.i + 1) := by
      rw [hslice1]
    simp only [scanStep]
    rw [if_pos h]
    simp only [hct, if_false]
    exact master_noemit hinv (by omega) (by omega) hcs2

/-! ### Scanner loop lemmas -/

theorem scanLoop_succ (p : List Char) (abbr : List (List Char)) (fuel : Nat)
    (s : ScanState) :
    scanLoop p abbr (fuel + 1) s =
      if s.i < p.length then scanLoop p abbr fuel (scanStep p abbr s) else s :=
  rfl

theorem scanLoop_master {p : List Char} (abbr : List (List Char)) :
    ∀ (fuel : Nat) (s : ScanState), ScanInv p s →
    ∃ new, (scanLoop p abbr fuel s).acc = s.acc ++ new ∧
      (∀ tok ∈ new, TokGood p tok) ∧
      ScanInv p (scanLoop p abbr fuel s) ∧
      s.i ≤ (scanLoop p abbr fuel s).i ∧
      delWs (new.flatten ++ (scanLoop p abbr fuel s).cs) =
        delWs (s.cs ++ sliceP p s.i (scanLoop p abbr fuel s).i) ∧
      (p.length ≤ s.i + fuel → (scanLoop p abbr fuel s).i = p.length) := by
  intro fuel
  induction fuel with
  | zero =>
    intro s hinv
    have hle := hinv.1
    exact ⟨[], by simp [scanLoop], by simp, hinv, le_refl _,
      by simp [scanLoop, sliceP_empty], fun hlen => by
        show s.i = p.length
        omega⟩
  | succ fuel ih =>
    intro s hinv
    by_cases h : s.i < p.length
    · obtain ⟨hinv₁, hlt₁, new₁, hacc₁, hgood₁, hdel₁⟩ :=
        scanStep_master abbr h hinv
      obtain ⟨new₂, hacc₂, hgood₂, hinv₂, hle₂, hdel₂, hfin₂⟩ :=
        ih (scanStep p abbr s) hinv₁
      have hloop : scanLoop p abbr (fuel + 1) s =
          scanLoop p abbr fuel (scanStep p abbr s) := by
        rw [scanLoop_succ, if_pos h]
      refine ⟨new₁ ++ new₂, ?_, ?_, ?_, ?_, ?_, ?_⟩
      · rw [hloop, hacc₂, hacc₁, List.append_assoc]
      · intro tok htok
        rcases List.mem_append.mp htok with h' | h'
        · exact hgood₁ _ h'
        · exact hgood₂ _ h'
      · rw [hloop]
        exact hinv₂
      · rw [hloop]
        exact le_trans (Nat.le_of_lt hlt₁) hle₂
      · rw [hloop]
        have e1 : delWs ((new₁ ++ new₂).flatten ++
            (scanLoop p abbr fuel (scanStep p abbr s)).cs) =
            delWs new₁.flatten ++ delWs (new₂.flatten ++
              (scanLoop p abbr fuel (scanStep p abbr s)).cs) := by
          rw [List.flatten_append, List.append_assoc, delWs_append]
        have e2 : delWs (new₂.flatten ++
            (scanLoop p abbr fuel (scanStep p abbr s)).cs) =
            delWs (scanStep p abbr s).cs ++
              delWs (sliceP p (scanStep p abbr s).i
                (scanLoop p abbr fuel (scanStep p abbr s)).i) := by
          rw [hdel₂, delWs_append]
        have e3 : delWs new₁.flatten ++ delWs (scanStep p abbr s).cs =
            delWs s.cs ++ delWs (sliceP p s.i (scanStep p abbr s).i) := by
          rw [← delWs_append, hdel₁, delWs_append]
        rw [e1, e2, ← List.append_assoc, e3, List.append_assoc,
          ← delWs_append (sliceP p s.i (scanStep p abbr s).i)
            (sliceP p (scanStep p abbr s).i
              (scanLoop p abbr fuel (scanStep p abbr s)).i),
          sliceP_append p s.i (scanStep p abbr s).i
            (scanLoop p abbr fuel (scanStep p abbr s)).i
            (Nat.le_of_lt hlt₁) hle₂,
          ← delWs_append]
      · intro hlen
        rw [hloop]
        exact hfin₂ (by omega)
    · have hloop : scanLoop p abbr (fuel + 1) s = s := by
        rw [scanLoop_succ, if_neg h]
      have hle := hinv.1
      refine ⟨[], by simp [hloop], by simp, by rw [hloop]; exact hinv,
        by rw [hloop], by simp [hloop, sliceP_empty], fun _ => by
          rw [hloop]
          show s.i = p.length
          omega⟩

/-! ### Paragraph-loop lemmas -/

theorem stripWs_eq_nil_allws {l : List Char} (h : stripWs l = []) :
    ∀ c ∈ l, pyIsSpace c = true := by
  have h2 : ∀ c ∈ lstripWs l, pyIsSpace c = true := allws_of_rstripWs_eq_nil h
  intro c hc
  obtain ⟨hdec, htw⟩ := lstripWs_decomp l
  rcases List.mem_append.mp (hdec ▸ hc) with h' | h'
  · exact htw c h'
  · exact h2 c h'

theorem tokGood_ne_marker {q tok : List Char} (hg : TokGood q tok)
    (hq : ¬ markerL <:+: q) : tok ≠ markerL := by
  intro heq
  obtain ⟨_, _, m, hm, htok⟩ := hg
  have hmm : markerL <:+: m := by
    rw [heq] at htok
    rw [htok]
    exact stripWs_isInfix m
  exact hq (hmm.trans hm)

theorem count_marker_zero {l : List (List Char)}
    (h : ∀ tok ∈ l, tok ≠ markerL) : l.count markerL = 0 := by
  rw [List.count_eq_zero]
  intro hmem
  exact h markerL hmem rfl

theorem processParas_cons (abbr : List (List Char)) (last para : List Char)
    (rest acc : List (List Char)) (cs : List Char) :
    processParas abbr last (para :: rest) acc cs =
      if stripWs para = [] then processParas abbr last rest acc cs
      else
        processParas abbr last rest
          (if para ≠ last then
            (if stripWs (scanLoop para abbr para.length ⟨0, cs, acc⟩).cs ≠ []
             then (scanLoop para abbr para.length ⟨0, cs, acc⟩).acc ++
               [stripWs (scanLoop para abbr para.length ⟨0, cs, acc⟩).cs]
             else (scanLoop para abbr para.length ⟨0, cs, acc⟩).acc) ++ [markerL]
           else
            (if stripWs (scanLoop para abbr para.length ⟨0, cs, acc⟩).cs ≠ []
             then (scanLoop para abbr para.length ⟨0, cs, acc⟩).acc ++
               [stripWs (scanLoop para abbr para.length ⟨0, cs, acc⟩).cs]
             else (scanLoop para abbr para.length ⟨0, cs, acc⟩).acc))
          (if stripWs (scanLoop para abbr para.length ⟨0, cs, acc⟩).cs ≠ []
           then [] else (scanLoop para abbr para.length ⟨0, cs, acc⟩).cs) := rfl

theorem processParas_master (abbr : List (List Char)) (last : List Char) :
    ∀ (paras acc : List (List Char)) (cs : List Char),
    (∀ q ∈ paras, ¬ markerL <:+: q) →
    (∀ c ∈ cs, pyIsSpace c = true) →
    ∃ new, processParas abbr last paras acc cs = acc ++ new ∧
      (∀ tok ∈ new, tok = markerL ∨ (stripWs tok = tok ∧ stripWs tok ≠ [] ∧
        ∃ q ∈ paras, ∃ m, m <:+: q ∧ tok = stripWs m)) ∧
      delWs ((new.filter fun tok => decide (tok ≠ markerL)).flatten) =
        delWs paras.flatten ∧
      new.count markerL =
        paras.countP (fun q => decide (stripWs q ≠ []) && decide (q ≠ last)) := by
  intro paras
  induction paras with
  | nil =>
    intro acc cs _ _
    exact ⟨[], by simp [processParas], by simp, by simp, by simp⟩
  | cons para rest ih =>
    intro acc cs hmf hcs
    have hmf_rest : ∀ q ∈ rest, ¬ markerL <:+: q :=
      fun q hq => hmf q (List.mem_cons_of_mem _ hq)
    have hmf_para : ¬ markerL <:+: para := hmf para (List.mem_cons_self _ _)
    by_cases hblank : stripWs para = []
    · obtain ⟨new, hnew, hclass, hdel, hcount⟩ := ih acc cs hmf_rest hcs
      refine ⟨new, ?_, ?_, ?_, ?_⟩
      · rw [processParas_cons, if_pos hblank]
        exact hnew
      · intro tok htok
        rcases hclass tok htok with h | ⟨h1, h2, q, hq, hrest⟩
        · exact Or.inl h
        · exact Or.inr ⟨h1, h2, q, List.mem_cons_of_mem _ hq, hrest⟩
      · rw [hdel]
        have hdp : delWs para = [] :=
          delWs_eq_nil_of_allws (stripWs_eq_nil_allws hblank)
        simp [List.flatten_cons, delWs_append, hdp]
      · rw [hcount, List.countP_cons]
        simp [hblank]
    · have hinv0 : ScanInv para ⟨0, cs, acc⟩ :=
        ⟨Nat.zero_le _, cs, 0, le_refl 0, hcs, by
          rw [sliceP_empty, List.append_nil]⟩
      obtain ⟨new₀, hacc₀, hgood₀, hinvst, _, hdel₀, hfin₀⟩ :=
        scanLoop_master (p := para) abbr para.length ⟨0, cs, acc⟩ hinv0
      set st := scanLoop para abbr para.length ⟨0, cs, acc⟩ with hst
      have hsti : st.i = para.length := hfin₀ (by omega)
      have hdelpara : delWs (new₀.flatten ++ st.cs) = delWs para := by
        rw [hdel₀]
        show delWs ((⟨0, cs, acc⟩ : ScanState).cs ++
          sliceP para (⟨0, cs, acc⟩ : ScanState).i st.i) = _
        rw [hsti]
        show delWs (cs ++ sliceP para 0 para.length) = _
        rw [sliceP_full, delWs_append, delWs_eq_nil_of_allws hcs,
          List.nil_append]
      have hne₀ : ∀ tok ∈ new₀, tok ≠ markerL :=
        fun tok htok => tokGood_ne_marker (hgood₀ tok htok) hmf_para
      obtain ⟨hstle, w, j, hji, hw, hstcs⟩ := hinvst
      have hclass₀ : ∀ tok ∈ new₀, stripWs tok = tok ∧ stripWs tok ≠ [] ∧
          ∃ q ∈ para :: rest, ∃ m, m <:+: q ∧ tok = stripWs m := by
        intro tok htok
        obtain ⟨h1, h2, m, hm, h3⟩ := hgood₀ tok htok
        exact ⟨h1, h2, para, List.mem_cons_self _ _, m, hm, h3⟩
      by_cases hf : stripWs st.cs ≠ []
      · -- residual buffer flushed as a final sentence token
        have hflushGood : TokGood para (stripWs st.cs) := by
          refine ⟨stripWs_idem _, by rw [stripWs_idem]; exact hf,
            sliceP para j st.i, sliceP_isInfix _ _ _, ?_⟩
          rw [hstcs]
          exact stripWs_append_allws hw
        have hflush_ne : stripWs st.cs ≠ markerL :=
          tokGood_ne_marker hflushGood hmf_para
        obtain ⟨new₁, hnew₁, hclass₁, hdel₁, hcount₁⟩ :=
          ih (if para ≠ last then (st.acc ++ [stripWs st.cs]) ++ [markerL]
              else st.acc ++ [stripWs st.cs]) [] hmf_rest (by simp)
        have hpp : processParas abbr last (para :: rest) acc cs =
            (if para ≠ last then (st.acc ++ [stripWs st.cs]) ++ [markerL]
             else st.acc ++ [stripWs st.cs]) ++ new₁ := by
          rw [processParas_cons, if_neg hblank, ← hst, if_pos hf, if_pos hf]
          exact hnew₁
        refine ⟨new₀ ++ [stripWs st.cs] ++
          (if para ≠ last then [markerL] else []) ++ new₁, ?_, ?_, ?_, ?_⟩
        · rw [hpp, hacc₀]
          by_cases hm : para ≠ last <;> simp [hm, List.append_assoc]
        · intro tok htok
          simp only [List.append_assoc, List.mem_append] at htok
          rcases htok with h' | h' | h' | h'
          · exact Or.inr (hclass₀ tok h')
          · rw [List.mem_singleton] at h'
            subst h'
            obtain ⟨h1, h2, m, hm, h3⟩ := hflushGood
            exact Or.inr ⟨h1, h2, para, List.mem_cons_self _ _, m, hm, h3⟩
          · by_cases hm : para ≠ last
            · rw [if_pos hm, List.mem_singleton] at h'
              exact Or.inl h'
            · rw [if_neg hm] at h'
              exact absurd h' (List.not_mem_nil tok)
          · rcases hclass₁ tok h' with h | ⟨h1, h2, q, hq, hrest⟩
            · exact Or.inl h
            · exact Or.inr ⟨h1, h2, q, List.mem_cons_of_mem _ hq, hrest⟩
        · have hfilter₀ : new₀.filter (fun tok => decide (tok ≠ markerL)) =
              new₀ := by
            rw [List.filter_eq_self]
            intro tok htok
            simp [hne₀ tok htok]
          have hfm : (if para ≠ last then [markerL] else
              ([] : List (List Char))).filter
                (fun tok => decide (tok ≠ markerL)) = [] := by
            by_cases hm : para ≠ last <;> simp [hm]
          simp only [List.filter_append, hfilter₀, hfm, List.flatten_append,
            List.flatten_cons, List.append_nil, List.nil_append,
            delWs_append, hdel₁]
          have hfl : (List.filter (fun tok => decide (tok ≠ markerL))
              [stripWs st.cs]).flatten = stripWs st.cs := by
            simp [hflush_ne]
          rw [hfl, delWs_stripWs]
          have : delWs new₀.flatten ++ delWs st.cs = delWs para := by
            rw [← delWs_append]
            exact hdelpara
          rw [this]
        · rw [List.count_append, List.count_append, List.count_append,
            count_marker_zero hne₀,
            count_marker_zero (by
              intro tok htok
              rw [List.mem_singleton] at htok
              subst htok
              exact hflush_ne),
            hcount₁, List.countP_cons]
          have hpred : (decide (stripWs para ≠ []) &&
              decide (para ≠ last)) = decide (para ≠ last) := by
            simp [hblank]
          rw [hpred]
          by_cases hm : para ≠ last <;> simp [hm] <;> try omega
      · -- whitespace-only residual buffer carried into the next paragraph
        have hstall : ∀ c ∈ st.cs, pyIsSpace c = true :=
          stripWs_eq_nil_allws (by simpa using hf)
        have hdcs : delWs st.cs = [] := delWs_eq_nil_of_allws hstall
        obtain ⟨new₁, hnew₁, hclass₁, hdel₁, hcount₁⟩ :=
          ih (if para ≠ last then st.acc ++ [markerL] else st.acc) st.cs
            hmf_rest hstall
        have hpp : processParas abbr last (para :: rest) acc cs =
            (if para ≠ last then st.acc ++ [markerL] else st.acc) ++ new₁ := by
          rw [processParas_cons, if_neg hblank, ← hst, if_neg hf, if_neg hf]
          exact hnew₁
        refine ⟨new₀ ++ (if para ≠ last then [markerL] else []) ++ new₁,
          ?_, ?_, ?_, ?_⟩
        · rw [hpp, hacc₀]
          by_cases hm : para ≠ last <;> simp [hm, List.append_assoc]
        · intro tok htok
          simp only [List.append_assoc, List.mem_append] at htok
          rcases htok with h' | h' | h'
          · exact Or.inr (hclass₀ tok h')
          · by_cases hm : para ≠ last
            · rw [if_pos hm, List.mem_singleton] at h'
              exact Or.inl h'
            · rw [if_neg hm] at h'
              exact absurd h' (List.not_mem_nil tok)
          · rcases hclass₁ tok h' with h | ⟨h1, h2, q, hq, hrest⟩
            · exact Or.inl h
            · exact Or.inr ⟨h1, h2, q, List.mem_cons_of_mem _ hq, hrest⟩
        · have hfilter₀ : new₀.filter (fun tok => decide (tok ≠ markerL)) =
              new₀ := by
            rw [List.filter_eq_self]
            intro tok htok
            simp [hne₀ tok htok]
          have hfm : (if para ≠ last then [markerL] else
              ([] : List (List Char))).filter
                (fun tok => decide (tok ≠ markerL)) = [] := by
            by_cases hm : para ≠ last <;> simp [hm]
          simp only [List.filter_append, hfilter₀, hfm, List.flatten_append,
            List.flatten_cons, List.append_nil, List.nil_append,
            delWs_append, hdel₁]
          have hp : delWs new₀.flatten = delWs para := by
            rw [← hdelpara, delWs_append, hdcs, List.append_nil]
          rw [hp]
        · rw [List.count_append, List.count_append,
            count_marker_zero hne₀, hcount₁, List.countP_cons]
          have hpred : (decide (stripWs para ≠ []) &&
              decide (para ≠ last)) = decide (para ≠ last) := by
            simp [hblank]
          rw [hpred]
          by_cases hm : para ≠ last <;> simp [hm] <;> try omega

/-! ### Properties of the whole segmenter -/

theorem splitIntoSentences_eq (t : List Char) (abbr : List (List Char)) :
    splitIntoSentences t abbr =
      processParas abbr ((pySplitMarker t).getLastD []) (pySplitMarker t) [] [] :=
  rfl

theorem splitIntoSentences_props (t : List Char) (abbr : List (List Char)) :
    (∀ tok ∈ splitIntoSentences t abbr, tok = markerL ∨
      (stripWs tok = tok ∧ stripWs tok ≠ [] ∧
        ∃ q ∈ pySplitMarker t, ∃ m, m <:+: q ∧ tok = stripWs m)) ∧
    delWs (((splitIntoSentences t abbr).filter
        fun tok => decide (tok ≠ markerL)).flatten) =
      delWs (pySplitMarker t).flatten ∧
    (splitIntoSentences t abbr).count markerL =
      (pySplitMarker t).countP (fun q => decide (stripWs q ≠ []) &&
        decide (q ≠ (pySplitMarker t).getLastD [])) := by
  obtain ⟨new, hnew, hclass, hdel, hcount⟩ :=
    processParas_master abbr ((pySplitMarker t).getLastD [])
      (pySplitMarker t) [] [] (pySplitMarker_no_marker t) (by simp)
  rw [splitIntoSentences_eq, hnew, List.nil_append]
  exact ⟨hclass, hdel, hcount⟩

theorem getLastD_eq_getLast (l : List (List Char)) (d : List Char)
    (h : l ≠ []) : l.getLastD d = l.getLast h := by
  cases l with
  | nil => exact absurd rfl h
  | cons a t =>
    rw [List.getLastD_eq_getLast?, List.getLast?_eq_getLast (a :: t) h]
    rfl

/-! ### Claim theorems -/

/-- C1 (code evidence): segmenting `"He left... Then it happened."` yields the
single token `"He left... Then it happened."`, not the two tokens the claim
states.  The code computes `next_chars` from `paragraph[i+1:]`, so for an
ellipsis the lookahead always starts with the two remaining dots and the
upper-case test never succeeds; additionally `"happened."` matches the
unescaped-dot abbreviation pattern, so the final period does not split
either. -/
theorem claim_C1_ellipsis_failing_input :
    segmentText ("He left... Then it happened.".toList) defaultAbbreviations =
      ["He left... Then it happened.".toList] := by decide

/-- C2 (code evidence): segmenting `'"Stop," she said. "Now."'` yields the
single token `'"Stop," she said. "Now."'`, not the two tokens the claim
states: `"said."` matches the unescaped-dot abbreviation pattern, so the
period after `said` does not split, and afterwards the quote parity is odd
until the end of the input. -/
theorem claim_C2_dialogue_failing_input :
    segmentText ("\"Stop,\" she said. \"Now.\"".toList) defaultAbbreviations =
      ["\"Stop,\" she said. \"Now.\"".toList] := by decide

/-- C3 (code evidence): the first abbreviation criterion
`^([A-Za-z]+.)([A-Za-z]+.)+$` has unescaped dots, so it classifies the
ordinary words `home.` and `sat.` as abbreviations, contrary to the claim
(and to the code's own comment); the spec's letter-period alternation,
modelled separately, rejects them while both patterns accept `Ph.D.` and
`U.S.`. -/
theorem claim_C3_abbrev_regex_failing_input :
    multiPartAbbr1 ("home.".toList) = true ∧
    multiPartAbbr1 ("sat.".toList) = true ∧
    multiPartAbbr1 ("Ph.D.".toList) = true ∧
    multiPartAbbr1 ("U.S.".toList) = true ∧
    specLetterPeriodAlt ("home.".toList) = false ∧
    specLetterPeriodAlt ("sat.".toList) = false := by decide

/-- C4 (counterexample): on the source `"\n\nA\n\nB\n\n"` the pipeline emits
2 paragraph-break tokens while the source has 2 blank-line separated blocks,
so the claimed count `blocks - 1 = 1` fails: trailing (and leading) blank
paragraph pieces make the `paragraph != paragraphs[-1]` test emit a marker
after the final content paragraph. -/
theorem claim_C4_counterexample :
    (segmentText ("\n\nA\n\nB\n\n".toList) defaultAbbreviations).count markerL
        = 2 ∧
    specBlocks ("\n\nA\n\nB\n\n".toList) = 2 ∧
    (segmentText ("\n\nA\n\nB\n\n".toList) defaultAbbreviations).count markerL
        ≠ specBlocks ("\n\nA\n\nB\n\n".toList) - 1 := by
  refine ⟨by decide, by decide, by decide⟩

/-- C4 (amended): a paragraph-break token is emitted after exactly the
non-blank paragraph pieces that differ, as strings, from the final piece of
the marker split; hence when the final piece is non-blank and no earlier
piece equals it, the number of paragraph-break tokens equals the number of
non-blank paragraph pieces minus one. -/
theorem claim_C4_amended (t : List Char) (abbr : List (List Char))
    (ha : stripWs ((pySplitMarker t).getLastD []) ≠ [])
    (hb : ∀ q ∈ (pySplitMarker t).dropLast, q ≠ (pySplitMarker t).getLastD []) :
    (splitIntoSentences t abbr).count markerL =
      ((pySplitMarker t).filter fun q => decide (stripWs q ≠ [])).length - 1 := by
  obtain ⟨_, _, hcount⟩ := splitIntoSentences_props t abbr
  rw [hcount]
  set ps := pySplitMarker t with hps
  set lastp := ps.getLastD [] with hlastp
  have hne : ps ≠ [] := pySplitMarker_ne_nil t
  have hsplit : ps.dropLast ++ [lastp] = ps := by
    rw [hlastp, getLastD_eq_getLast ps [] hne]
    exact List.dropLast_append_getLast hne
  conv_lhs => rw [← hsplit]
  conv_rhs => rw [← hsplit]
  rw [List.countP_append, List.filter_append]
  have hlast_pred : List.countP
      (fun q => decide (stripWs q ≠ []) && decide (q ≠ lastp)) [lastp] = 0 := by
    simp [List.countP_cons]
  have hcongr : List.countP
      (fun q => decide (stripWs q ≠ []) && decide (q ≠ lastp)) ps.dropLast =
      List.countP (fun q => decide (stripWs q ≠ [])) ps.dropLast := by
    apply List.countP_congr
    intro q hq
    simp only [Bool.and_eq_true, decide_eq_true_eq]
    exact ⟨fun h' => h'.1, fun h' => ⟨h', hb q hq⟩⟩
  have hlast_nonblank : List.filter (fun q => decide (stripWs q ≠ []))
      [lastp] = [lastp] := by
    simp only [List.filter_cons, List.filter_nil]
    rw [if_pos (by simpa using ha)]
  rw [hlast_pred, hcongr, hlast_nonblank, List.length_append,
    List.countP_eq_length_filter]
  simp

/-- Witness for the amended C4 at a concrete input with two non-blank
paragraph pieces. -/
theorem claim_C4_amended_witness :
    (splitIntoSentences ("A [PARAGRAPH BREAK] B".toList) []).count markerL =
      ((pySplitMarker ("A [PARAGRAPH BREAK] B".toList)).filter
        fun q => decide (stripWs q ≠ [])).length - 1 :=
  claim_C4_amended ("A [PARAGRAPH BREAK] B".toList) [] (by decide) (by decide)

/-- C5: every token produced by `split_into_sentences` is non-empty after
trimming, for every input text and abbreviation set. -/
theorem claim_C5_no_empty_tokens (t : List Char) (abbr : List (List Char))
    (tok : List Char) (htok : tok ∈ splitIntoSentences t abbr) :
    stripWs tok ≠ [] := by
  rcases (splitIntoSentences_props t abbr).1 tok htok with h | ⟨_, h2, _⟩
  · rw [h]
    decide
  · exact h2

/-- Witness for C5 at a concrete input. -/
theorem claim_C5_witness : stripWs ("Hi.".toList) ≠ [] :=
  claim_C5_no_empty_tokens ("Hi.".toList) [] ("Hi.".toList) (by decide)

/-- C6: the Normalizer is idempotent: `preprocess_text` applied to its own
output returns that output unchanged. -/
theorem claim_C6_normalizer_idempotent (t : List Char) :
    preprocess (preprocess t) = preprocess t :=
  preprocess_fix t

/-- C7: whenever a candidate terminator is scanned while the buffer
(including that character) has an odd number of double quotes or more open
than close parentheses, the step emits no sentence token and scanning
continues; and the parenthetical example yields exactly one sentence
token. -/
theorem claim_C7_quote_paren_guard :
    (∀ (p : List Char) (abbr : List (List Char)) (s : ScanState),
      s.i < p.length → p.getD s.i ' ' ∈ termChars →
      quoteParenOpen (s.cs ++ [p.getD s.i ' ']) = true →
      (scanStep p abbr s).acc = s.acc ∧ s.i < (scanStep p abbr s).i) ∧
    segmentText
      ("This is a sentence with (a parenthetical. Still inside) and done.".toList)
      defaultAbbreviations =
      ["This is a sentence with (a parenthetical. Still inside) and done.".toList]
    := by
  constructor
  · intro p abbr s h hct hg
    have hq : (!decide ((s.cs ++ [p.getD s.i ' ']).count '"' % 2 ≠ 0) &&
        !decide ((s.cs ++ [p.getD s.i ' ']).count ')' <
          (s.cs ++ [p.getD s.i ' ']).count '(')) = false := by
      unfold quoteParenOpen at hg
      rcases Bool.or_eq_true_iff.mp hg with h' | h'
      · simp only [h', Bool.not_true, Bool.false_and]
      · simp only [h', Bool.not_true, Bool.and_false]
    simp only [scanStep]
    rw [if_pos h]
    simp only [hct, if_true, hq, Bool.false_and, Bool.false_eq_true, if_false]
    constructor
    · trivial
    · cases hE : ellipsisB p s.i <;> simp [hE] <;> try omega
  · decide

/-- Witness for the guard part of C7: a period scanned inside an open
quotation is suppressed and the position advances. -/
theorem claim_C7_witness :
    (scanStep ("\"a.".toList) [] ⟨2, "\"a".toList, []⟩).acc =
      (⟨2, "\"a".toList, []⟩ : ScanState).acc ∧
    (2 : Nat) < (scanStep ("\"a.".toList) [] ⟨2, "\"a".toList, []⟩).i :=
  claim_C7_quote_paren_guard.1 ("\"a.".toList) [] ⟨2, "\"a".toList, []⟩
    (by decide) (by decide) (by decide)

/-- C8: the segmentation core is total by construction (every function of
this embedding is a total Lean function), and the empty input yields the
empty normalized string and an empty token list for every abbreviation
set. -/
theorem claim_C8_total_empty :
    (∀ (t : List Char) (abbr : List (List Char)),
      ∃ toks, splitIntoSentences (preprocess t) abbr = toks) ∧
    preprocess [] = [] ∧
    ∀ abbr : List (List Char), splitIntoSentences (preprocess []) abbr = [] :=
  ⟨fun t abbr => ⟨splitIntoSentences (preprocess t) abbr, rfl⟩, rfl, fun _ => rfl⟩

/-- C9: segmentation loses no content: concatenating the non-marker tokens
and deleting whitespace reproduces the normalized text with all markers and
whitespace deleted. -/
theorem claim_C9_content_preserved (raw : List Char) (abbr : List (List Char)) :
    delWs (((segmentText raw abbr).filter
        fun tok => decide (tok ≠ markerL)).flatten) =
      delWs (deleteMarkers (preprocess raw)) :=
  (splitIntoSentences_props (preprocess raw) abbr).2.1

/-- C10: every output token either is exactly the paragraph-break marker or
does not contain it as a substring. -/
theorem claim_C10_no_marker_inside (t : List Char) (abbr : List (List Char))
    (tok : List Char) (htok : tok ∈ splitIntoSentences t abbr) :
    tok = markerL ∨ ¬ markerL <:+: tok := by
  rcases (splitIntoSentences_props t abbr).1 tok htok with h | h
  · exact Or.inl h
  · obtain ⟨_, _, q, hq, m, hm, htokm⟩ := h
    refine Or.inr fun hinf => ?_
    have h1 : markerL <:+: m := by
      rw [htokm] at hinf
      exact hinf.trans (stripWs_isInfix m)
    exact pySplitMarker_no_marker t q hq (h1.trans hm)

/-- Witness for C10 at a concrete input. -/
theorem claim_C10_witness :
    ("Go!".toList) = markerL ∨ ¬ markerL <:+: ("Go!".toList) :=
  claim_C10_no_marker_inside ("Go!".toList) [] ("Go!".toList) (by decide)

